import Mathlib

/-!
# Typing-Game: scoring and colouring of a typing session

A shallow embedding of `src/src/components/TypingGame.jsx`:

* `calculateResults` (lines 45-65): word count, elapsed time, words per minute, the character
  loop, the tail adjustment of `incorrectChars`, and the accuracy;
* the test of `handleUserInput` (lines 85-91) for an incorrect character;
* `renderTextWithColor` (lines 101-115): the per-character colour of the target text.

JavaScript strings are sequences of UTF-16 code units; `s[i]` is the code unit at `i`, or
`undefined` past the end.  Numbers are IEEE 754 binary64 values: a finite number is carried by
its exact rational value, every division and multiplication rounds its exact result to the
nearest binary64 value (ties to even, overflow to an infinity), and `Infinity`, `-Infinity` and
`NaN` are separate constructors.  The sign of zero is not represented.
-/

namespace TypingGame

/-! ## Strings -/

/-- A UTF-16 code unit. -/
abbrev CodeUnit := Nat

/-- A JavaScript string: its sequence of code units. -/
abbrev JSString := List CodeUnit

/-- The code units of a Lean string literal whose characters are all in the basic plane. -/
def ofString (s : String) : JSString := s.toList.map Char.toNat

/-- The JavaScript `s[i]`: `none` stands for `undefined`. -/
def charAt (s : JSString) (i : Nat) : Option CodeUnit := s[i]?

/-! ## Numbers -/

/-- A JavaScript number: a finite value, or one of the three special values. -/
inductive JSNumber where
  | finite (q : ℚ)
  | posInf
  | negInf
  | nan
  deriving DecidableEq

namespace JSNumber

/-- The nearest integer to `q`, a tie going to the even neighbour. -/
def roundHalfEven (q : ℚ) : ℤ :=
  if q - ⌊q⌋ < 1 / 2 then ⌊q⌋
  else if 1 / 2 < q - ⌊q⌋ then ⌊q⌋ + 1
  else if ⌊q⌋ % 2 = 0 then ⌊q⌋ else ⌊q⌋ + 1

/-- The exponent of the spacing of the binary64 values around `q`: 53 significant bits, and
the fixed spacing `2 ^ (-1074)` of the subnormal range. -/
def ulpExp (q : ℚ) : ℤ := max (Int.log 2 |q| - 52) (-1074)

/-- The multiple of `2 ^ e` nearest to `q`, ties to even. -/
def roundTo (e : ℤ) (q : ℚ) : ℚ := (roundHalfEven (q / (2 : ℚ) ^ e) : ℚ) * (2 : ℚ) ^ e

/-- The binary64 value of the exact result `q` of an arithmetic operation: round to nearest,
ties to even; a rounded magnitude of `2 ^ 1024` or more overflows to an infinity. -/
def toDouble (q : ℚ) : JSNumber :=
  if (2 : ℚ) ^ (1024 : ℤ) ≤ |roundTo (ulpExp q) q| then
    (if 0 < q then posInf else negInf)
  else finite (roundTo (ulpExp q) q)

/-- The JavaScript `a / b`.  A finite zero divisor is `+0`, as produced by `0 / 1000`. -/
def div : JSNumber → JSNumber → JSNumber
  | nan, _ => nan
  | _, nan => nan
  | finite a, finite b =>
    if b = 0 then (if a = 0 then nan else if 0 < a then posInf else negInf)
    else toDouble (a / b)
  | finite _, posInf => finite 0
  | finite _, negInf => finite 0
  | posInf, finite b => if 0 ≤ b then posInf else negInf
  | negInf, finite b => if 0 ≤ b then negInf else posInf
  | posInf, posInf => nan
  | posInf, negInf => nan
  | negInf, posInf => nan
  | negInf, negInf => nan

/-- The JavaScript `a * b`. -/
def mul : JSNumber → JSNumber → JSNumber
  | nan, _ => nan
  | _, nan => nan
  | finite a, finite b => toDouble (a * b)
  | finite a, posInf => if a = 0 then nan else if 0 < a then posInf else negInf
  | finite a, negInf => if a = 0 then nan else if 0 < a then negInf else posInf
  | posInf, finite b => if b = 0 then nan else if 0 < b then posInf else negInf
  | negInf, finite b => if b = 0 then nan else if 0 < b then negInf else posInf
  | posInf, posInf => posInf
  | posInf, negInf => negInf
  | negInf, posInf => negInf
  | negInf, negInf => posInf

/-- The JavaScript `Math.round`: the nearest integer, halves rounded up (an integer that
`Math.round` returns exactly); the special values are returned unchanged. -/
def round : JSNumber → JSNumber
  | finite q => finite (⌊q + 1 / 2⌋ : ℤ)
  | posInf => posInf
  | negInf => negInf
  | nan => nan

/-- A number is finite when it is neither infinite nor `NaN`. -/
def isFinite : JSNumber → Bool
  | finite _ => true
  | _ => false

end JSNumber

/-! ## Word count: `userInput.trim().split(/\s+/).length` -/

/-- The code units matched by `\s` and removed by `trim`: ECMAScript `WhiteSpace` and
`LineTerminator`. -/
def isWhiteSpace (c : CodeUnit) : Bool :=
  c == 0x0009 || c == 0x000A || c == 0x000B || c == 0x000C || c == 0x000D || c == 0x0020 ||
  c == 0x00A0 || c == 0x1680 || (0x2000 ≤ c && c ≤ 0x200A) || c == 0x2028 || c == 0x2029 ||
  c == 0x202F || c == 0x205F || c == 0x3000 || c == 0xFEFF

/-- The JavaScript `s.trim()`: leading and trailing white space removed. -/
def trim (s : JSString) : JSString :=
  (s.dropWhile isWhiteSpace).rdropWhile isWhiteSpace

/-- The scan of `s.split(/\s+/)`: `cur` is the piece being collected and `inSep` tells that the
previous code unit belonged to the separator being matched (the greedy `\s+` takes the whole
run).  A separator closes the current piece, also an empty one; the end of the string closes
the last piece. -/
def splitGo : JSString → JSString → Bool → List JSString
  | [], cur, _ => [cur]
  | c :: rest, cur, inSep =>
    if isWhiteSpace c then
      if inSep then splitGo rest [] true else cur :: splitGo rest [] true
    else splitGo rest (cur ++ [c]) false

/-- The JavaScript `s.split(/\s+/)`. -/
def splitWhiteSpace (s : JSString) : List JSString := splitGo s [] false

/-- Line 46: `userInput.trim().split(/\s+/).length`. -/
def wordCount (userInput : JSString) : Nat := (splitWhiteSpace (trim userInput)).length

/-- A maximal run of code units that are not white space begins at position `i` of `s`: the
code unit at `i` is not white space, and `i` is the first position or the code unit before it
is white space. -/
def runStartsAt (s : JSString) (i : Nat) : Bool :=
  (charAt s i).any (fun c => !isWhiteSpace c) &&
    (i == 0 || (charAt s (i - 1)).any isWhiteSpace)

/-- The number of maximal runs of code units of `s` that are not white space: each run has
exactly one first position. -/
def nonWhiteSpaceRuns (s : JSString) : Nat :=
  ((List.range s.length).filter (runStartsAt s)).length

/-! ## `calculateResults` -/

/-- The body of the loop of lines 53-59 at index `i`. -/
def scoreStep (text userInput : JSString) (acc : Int × Int) (i : Nat) : Int × Int :=
  if charAt userInput i = charAt text i then (acc.1 + 1, acc.2) else (acc.1, acc.2 + 1)

/-- Lines 51-59: `(correctChars, incorrectChars)` after the loop
`for (let i = 0; i < userInput.length; i++)`. -/
def scoreLoop (text userInput : JSString) : Int × Int :=
  (List.range userInput.length).foldl (scoreStep text userInput) (0, 0)

/-- Line 47: `(Date.now() - typingStartTime) / 1000`, where `elapsedMs` is the difference
`Date.now() - typingStartTime`, a whole number of milliseconds. -/
def timeTakenOf (elapsedMs : Int) : JSNumber :=
  JSNumber.div (JSNumber.finite elapsedMs) (JSNumber.finite 1000)

/-- Line 48: `Math.round((words / timeTaken) * 60)`. -/
def wpmOf (words : Nat) (timeTaken : JSNumber) : JSNumber :=
  JSNumber.round
    (JSNumber.mul (JSNumber.div (JSNumber.finite words) timeTaken) (JSNumber.finite 60))

/-- Line 62: `Math.round((correctChars / text.length) * 100)`. -/
def accuracyOf (correctChars : Int) (textLength : Nat) : JSNumber :=
  JSNumber.round
    (JSNumber.mul (JSNumber.div (JSNumber.finite correctChars) (JSNumber.finite textLength))
      (JSNumber.finite 100))

/-- The object passed to `setResults` on line 64. -/
structure Results where
  wpm : JSNumber
  accuracy : JSNumber
  correctChars : Int
  incorrectChars : Int
  deriving DecidableEq

/-- Lines 45-65.  `elapsedMs` is `Date.now() - typingStartTime`, in milliseconds. -/
def calculateResults (text userInput : JSString) (elapsedMs : Int) : Results :=
  let words := wordCount userInput
  let timeTaken := timeTakenOf elapsedMs
  let wpm := wpmOf words timeTaken
  let loop := scoreLoop text userInput
  let correctChars := loop.1
  let incorrectChars := loop.2 + ((text.length : Int) - (userInput.length : Int))
  let accuracy := accuracyOf correctChars text.length
  { wpm := wpm, accuracy := accuracy, correctChars := correctChars,
    incorrectChars := incorrectChars }

/-! ## `handleUserInput` -/

/-- Lines 85-91, under the comment "Play error sound if incorrect character": the test that
decides whether the last character of the new value `value` of the text area is incorrect. -/
def playsErrorSound (text value : JSString) : Bool :=
  decide (value.length > 0) &&
    (charAt value (value.length - 1) != charAt text (value.length - 1))

/-! ## `renderTextWithColor` -/

/-- The three class names chosen on lines 103-108. -/
inductive Color where
  | gray
  | green
  | red
  deriving DecidableEq

/-- Lines 103-108: the colour of the target character `char` at position `index`. -/
def colorAt (userInput : JSString) (index : Nat) (char : CodeUnit) : Color :=
  if charAt userInput index = some char then Color.green
  else if charAt userInput index ≠ none then Color.red
  else Color.gray

/-- Lines 101-115: `text.split("").map((char, index) => ...)`, each span reduced to its colour
and its character. -/
def renderTextWithColor (text userInput : JSString) : List (Color × CodeUnit) :=
  text.mapIdx (fun index char => (colorAt userInput index char, char))

/-- The number of spans rendered with the class `text-green-600`. -/
def greenCount (text userInput : JSString) : Nat :=
  ((renderTextWithColor text userInput).filter (fun span => span.1 = Color.green)).length

/-- The number of spans rendered with the class `text-red-600` or `text-gray-500`. -/
def redOrGrayCount (text userInput : JSString) : Nat :=
  ((renderTextWithColor text userInput).filter
    (fun span => span.1 = Color.red ∨ span.1 = Color.gray)).length

/-! ## Auxiliary counts used in the proofs -/

/-- The number of positions at which the typed code unit equals the target code unit. -/
def matchCount : JSString → JSString → Nat
  | [], _ => 0
  | _ :: _, [] => 0
  | u :: us, t :: ts => (if u = t then 1 else 0) + matchCount us ts

/-- The runs counted from left to right: `boundary` tells that a run may begin at the head
(the head is the first position, or follows white space). -/
def countRuns : Bool → JSString → Nat
  | _, [] => 0
  | boundary, c :: rest =>
    if isWhiteSpace c then countRuns true rest
    else (if boundary then 1 else 0) + countRuns false rest

/-! ## Rounding to binary64 -/

namespace JSNumber

theorem roundHalfEven_le {q : ℚ} {z : ℤ} (h : q ≤ z) : roundHalfEven q ≤ z := by
  have hfl : (⌊q⌋ : ℤ) ≤ z := Int.floor_le_iff.mpr (by linarith)
  have hf := Int.floor_le q
  unfold roundHalfEven
  split_ifs with h1 h2 h3
  · exact hfl
  · rcases hfl.lt_or_eq with hlt | heq
    · omega
    · exfalso
      have : (⌊q⌋ : ℚ) = z := by exact_mod_cast heq
      linarith
  · exact hfl
  · rcases hfl.lt_or_eq with hlt | heq
    · omega
    · exfalso
      have : (⌊q⌋ : ℚ) = z := by exact_mod_cast heq
      linarith

theorem le_roundHalfEven {q : ℚ} {z : ℤ} (h : (z : ℚ) ≤ q) : z ≤ roundHalfEven q := by
  have hfl : z ≤ (⌊q⌋ : ℤ) := Int.le_floor.mpr h
  unfold roundHalfEven
  split_ifs <;> omega

theorem roundHalfEven_intCast (z : ℤ) : roundHalfEven (z : ℚ) = z :=
  le_antisymm (roundHalfEven_le le_rfl) (le_roundHalfEven le_rfl)

theorem two_zpow_pos (e : ℤ) : (0 : ℚ) < (2 : ℚ) ^ e := zpow_pos (by norm_num) e

theorem roundTo_le {e : ℤ} {q : ℚ} (z : ℤ) (h : q ≤ (z : ℚ) * (2 : ℚ) ^ e) :
    roundTo e q ≤ (z : ℚ) * (2 : ℚ) ^ e := by
  have hpos := two_zpow_pos e
  have hq : q / (2 : ℚ) ^ e ≤ (z : ℚ) := (div_le_iff₀ hpos).mpr h
  have hz : ((roundHalfEven (q / (2 : ℚ) ^ e) : ℤ) : ℚ) ≤ (z : ℚ) := by
    exact_mod_cast roundHalfEven_le hq
  exact mul_le_mul_of_nonneg_right hz hpos.le

theorem le_roundTo {e : ℤ} {q : ℚ} (z : ℤ) (h : (z : ℚ) * (2 : ℚ) ^ e ≤ q) :
    (z : ℚ) * (2 : ℚ) ^ e ≤ roundTo e q := by
  have hpos := two_zpow_pos e
  have hq : (z : ℚ) ≤ q / (2 : ℚ) ^ e := (le_div_iff₀ hpos).mpr h
  have hz : (z : ℚ) ≤ ((roundHalfEven (q / (2 : ℚ) ^ e) : ℤ) : ℚ) := by
    exact_mod_cast le_roundHalfEven hq
  exact mul_le_mul_of_nonneg_right hz hpos.le

theorem roundTo_two_mul (e : ℤ) (q : ℚ) : roundTo (e + 1) (2 * q) = 2 * roundTo e q := by
  have hne : (2 : ℚ) ^ e ≠ 0 := (two_zpow_pos e).ne.symm
  have hpow : (2 : ℚ) ^ (e + 1) = (2 : ℚ) ^ e * 2 := zpow_add_one₀ (by norm_num) e
  have hdiv : 2 * q / (2 : ℚ) ^ (e + 1) = q / (2 : ℚ) ^ e := by
    rw [hpow]
    field_simp
    ring
  unfold roundTo
  rw [hdiv, hpow]
  ring

theorem int_eq_mul_zpow (z : ℤ) {e : ℤ} (he : e ≤ 0) :
    ∃ m : ℤ, (z : ℚ) = (m : ℚ) * (2 : ℚ) ^ e := by
  refine ⟨z * 2 ^ (-e).toNat, ?_⟩
  have hcast : ((-e).toNat : ℤ) = -e := Int.toNat_of_nonneg (by omega)
  have hpow : (2 : ℚ) ^ (-e).toNat = (2 : ℚ) ^ (-e) := by
    rw [← zpow_natCast, hcast]
  push_cast
  rw [hpow, mul_assoc, ← zpow_add₀ (by norm_num : (2 : ℚ) ≠ 0)]
  simp

theorem ulpExp_nonpos {q : ℚ} (h : |q| < (2 : ℚ) ^ (52 : ℤ)) : ulpExp q ≤ 0 := by
  have hlog : Int.log 2 |q| < 52 := by
    rcases (abs_nonneg q).eq_or_lt with h0 | hpos
    · rw [← h0, Int.log_zero_right]
      norm_num
    · exact (Int.lt_zpow_iff_log_lt (by norm_num) hpos).mp (by exact_mod_cast h)
  unfold ulpExp
  omega

theorem toDouble_between_ints (q : ℚ) (a b : ℤ) (ha : (a : ℚ) ≤ q) (hb : q ≤ (b : ℚ))
    (hlo : -(2 : ℤ) ^ 52 < a) (hhi : b < (2 : ℤ) ^ 52) :
    ∃ v : ℚ, toDouble q = finite v ∧ (a : ℚ) ≤ v ∧ v ≤ (b : ℚ) := by
  have hloq : -(2 : ℚ) ^ (52 : ℤ) < (a : ℚ) := by exact_mod_cast hlo
  have hhiq : (b : ℚ) < (2 : ℚ) ^ (52 : ℤ) := by exact_mod_cast hhi
  have habs : |q| < (2 : ℚ) ^ (52 : ℤ) := abs_lt.mpr ⟨by linarith, by linarith⟩
  have he := ulpExp_nonpos habs
  obtain ⟨ma, hma⟩ := int_eq_mul_zpow a he
  obtain ⟨mb, hmb⟩ := int_eq_mul_zpow b he
  have hge : (a : ℚ) ≤ roundTo (ulpExp q) q := by
    rw [hma]
    exact le_roundTo ma (by rw [← hma]; exact ha)
  have hle : roundTo (ulpExp q) q ≤ (b : ℚ) := by
    rw [hmb]
    exact roundTo_le mb (by rw [← hmb]; exact hb)
  have hfin : ¬ (2 : ℚ) ^ (1024 : ℤ) ≤ |roundTo (ulpExp q) q| := by
    have h1 : |roundTo (ulpExp q) q| < (2 : ℚ) ^ (52 : ℤ) :=
      abs_lt.mpr ⟨by linarith, by linarith⟩
    have h2 : (2 : ℚ) ^ (52 : ℤ) ≤ (2 : ℚ) ^ (1024 : ℤ) :=
      zpow_le_zpow_right₀ (by norm_num) (by norm_num)
    linarith
  exact ⟨_, by rw [toDouble, if_neg hfin], hge, hle⟩

theorem toDouble_intCast (z : ℤ) (hlo : -(2 : ℤ) ^ 52 < z) (hhi : z < (2 : ℤ) ^ 52) :
    toDouble (z : ℚ) = finite (z : ℚ) := by
  obtain ⟨v, hv, h1, h2⟩ := toDouble_between_ints (z : ℚ) z z le_rfl le_rfl hlo hhi
  rw [hv, le_antisymm h2 h1]

theorem log_eq_of_bounds {q : ℚ} {l : ℤ} (hlo : (2 : ℚ) ^ l ≤ q) (hhi : q < (2 : ℚ) ^ (l + 1)) :
    Int.log 2 q = l := by
  have hq : 0 < q := lt_of_lt_of_le (two_zpow_pos l) hlo
  have h1 : l ≤ Int.log 2 q := (Int.zpow_le_iff_le_log (by norm_num) hq).mp (by exact_mod_cast hlo)
  have h2 : Int.log 2 q < l + 1 :=
    (Int.lt_zpow_iff_log_lt (by norm_num) hq).mp (by exact_mod_cast hhi)
  omega

theorem toDouble_normal {q : ℚ} {a b : ℤ} (hlo : (2 : ℚ) ^ a ≤ q) (hhi : q < (2 : ℚ) ^ b)
    (ha : -1022 ≤ a) (hb : b ≤ 1023) :
    toDouble q = finite (roundTo (Int.log 2 q - 52) q) ∧
      (2 : ℚ) ^ a ≤ roundTo (Int.log 2 q - 52) q ∧ roundTo (Int.log 2 q - 52) q ≤ (2 : ℚ) ^ b := by
  have hq : 0 < q := lt_of_lt_of_le (two_zpow_pos a) hlo
  have hl1 : a ≤ Int.log 2 q := (Int.zpow_le_iff_le_log (by norm_num) hq).mp (by exact_mod_cast hlo)
  have hl2 : Int.log 2 q < b := (Int.lt_zpow_iff_log_lt (by norm_num) hq).mp (by exact_mod_cast hhi)
  have hexp : ulpExp q = Int.log 2 q - 52 := by
    unfold ulpExp
    rw [abs_of_pos hq]
    omega
  have hLlo : (2 : ℚ) ^ (Int.log 2 q) ≤ q := by
    exact_mod_cast Int.zpow_log_le_self (by norm_num : 1 < 2) hq
  have hLhi : q < (2 : ℚ) ^ (Int.log 2 q + 1) := by
    exact_mod_cast Int.lt_zpow_succ_log_self (by norm_num : 1 < 2) q
  have two_ne : (2 : ℚ) ≠ 0 := by norm_num
  have e1 : (2 : ℚ) ^ (Int.log 2 q) = (((2 : ℤ) ^ 52 : ℤ) : ℚ) * (2 : ℚ) ^ (Int.log 2 q - 52) := by
    rw [zpow_sub₀ two_ne]
    push_cast
    field_simp
    norm_num
    ring
  have e2 : (2 : ℚ) ^ (Int.log 2 q + 1)
      = (((2 : ℤ) ^ 53 : ℤ) : ℚ) * (2 : ℚ) ^ (Int.log 2 q - 52) := by
    rw [zpow_sub₀ two_ne, zpow_add_one₀ two_ne]
    push_cast
    field_simp
    norm_num
    ring
  have hge : (2 : ℚ) ^ (Int.log 2 q) ≤ roundTo (Int.log 2 q - 52) q := by
    rw [e1]
    exact le_roundTo _ (by rw [← e1]; exact hLlo)
  have hle : roundTo (Int.log 2 q - 52) q ≤ (2 : ℚ) ^ (Int.log 2 q + 1) := by
    rw [e2]
    exact roundTo_le _ (by rw [← e2]; exact hLhi.le)
  have ha' : (2 : ℚ) ^ a ≤ (2 : ℚ) ^ (Int.log 2 q) := zpow_le_zpow_right₀ (by norm_num) hl1
  have hb' : (2 : ℚ) ^ (Int.log 2 q + 1) ≤ (2 : ℚ) ^ b :=
    zpow_le_zpow_right₀ (by norm_num) (by omega)
  have hpos : 0 < roundTo (Int.log 2 q - 52) q :=
    lt_of_lt_of_le (two_zpow_pos _) hge
  have hfin : ¬ (2 : ℚ) ^ (1024 : ℤ) ≤ |roundTo (ulpExp q) q| := by
    rw [hexp, abs_of_pos hpos]
    have h3 : (2 : ℚ) ^ b < (2 : ℚ) ^ (1024 : ℤ) :=
      zpow_lt_zpow_right₀ (by norm_num) (by omega)
    linarith
  refine ⟨?_, le_trans ha' hge, le_trans hle hb'⟩
  rw [toDouble, if_neg hfin, hexp]

theorem toDouble_two_mul {q : ℚ} {a b : ℤ} (hlo : (2 : ℚ) ^ a ≤ q) (hhi : q < (2 : ℚ) ^ b)
    (ha : -1022 ≤ a) (hb : b ≤ 1022) :
    ∃ v : ℚ, toDouble q = finite v ∧ toDouble (2 * q) = finite (2 * v) ∧
      (2 : ℚ) ^ a ≤ v ∧ v ≤ (2 : ℚ) ^ b := by
  have hq : 0 < q := lt_of_lt_of_le (two_zpow_pos a) hlo
  have two_ne : (2 : ℚ) ≠ 0 := by norm_num
  obtain ⟨h1, h2, h3⟩ := toDouble_normal hlo hhi ha (by omega : b ≤ 1023)
  have hlo2 : (2 : ℚ) ^ (a + 1) ≤ 2 * q := by
    rw [zpow_add_one₀ two_ne]
    linarith
  have hhi2 : 2 * q < (2 : ℚ) ^ (b + 1) := by
    rw [zpow_add_one₀ two_ne]
    linarith
  obtain ⟨k1, _, _⟩ := toDouble_normal hlo2 hhi2 (by omega : -1022 ≤ a + 1)
    (by omega : b + 1 ≤ 1023)
  have hlog : Int.log 2 (2 * q) = Int.log 2 q + 1 := by
    apply log_eq_of_bounds
    · have := Int.zpow_log_le_self (by norm_num : 1 < 2) hq
      rw [zpow_add_one₀ two_ne]
      have h' : (2 : ℚ) ^ (Int.log 2 q) ≤ q := by exact_mod_cast this
      linarith
    · have := Int.lt_zpow_succ_log_self (by norm_num : 1 < 2) q
      rw [zpow_add_one₀ two_ne]
      have h' : q < (2 : ℚ) ^ (Int.log 2 q + 1) := by exact_mod_cast this
      linarith
  refine ⟨_, h1, ?_, h2, h3⟩
  rw [k1, hlog, show Int.log 2 q + 1 - 52 = (Int.log 2 q - 52) + 1 by ring, roundTo_two_mul]

end JSNumber

/-! ## The character loop -/

theorem matchCount_nil_right (userInput : JSString) : matchCount userInput [] = 0 := by
  cases userInput <;> rfl

theorem scoreStep_succ_cons (t u : CodeUnit) (text userInput : JSString) (acc : Int × Int)
    (i : Nat) :
    scoreStep (t :: text) (u :: userInput) acc (i + 1) = scoreStep text userInput acc i := by
  simp [scoreStep, charAt]

theorem scoreStep_succ_nil (u : CodeUnit) (userInput : JSString) (acc : Int × Int) (i : Nat) :
    scoreStep [] (u :: userInput) acc (i + 1) = scoreStep [] userInput acc i := by
  simp [scoreStep, charAt]

theorem foldl_scoreStep (userInput : JSString) :
    ∀ (text : JSString) (acc : Int × Int),
      (List.range userInput.length).foldl (scoreStep text userInput) acc
        = (acc.1 + (matchCount userInput text : Int),
           acc.2 + ((userInput.length : Int) - (matchCount userInput text : Int))) := by
  induction userInput with
  | nil => intro text acc; simp [matchCount]
  | cons u us ih =>
    intro text acc
    rw [List.length_cons, List.range_succ_eq_map, List.foldl_cons, List.foldl_map]
    cases text with
    | nil =>
      simp only [Nat.succ_eq_add_one, scoreStep_succ_nil, ih, matchCount_nil_right]
      simp [scoreStep, charAt]
      ring
    | cons t ts =>
      simp only [Nat.succ_eq_add_one, scoreStep_succ_cons, ih, matchCount]
      by_cases h : u = t
      · simp [scoreStep, charAt, h]; constructor <;> ring
      · simp [scoreStep, charAt, h]; ring

theorem matchCount_le_text : ∀ (userInput text : JSString), matchCount userInput text ≤ text.length
  | [], _ => by simp [matchCount]
  | _ :: _, [] => by simp [matchCount]
  | u :: us, t :: ts => by
    have := matchCount_le_text us ts
    simp only [matchCount, List.length_cons]
    split <;> omega

theorem correctChars_eq (text userInput : JSString) (elapsedMs : Int) :
    (calculateResults text userInput elapsedMs).correctChars = matchCount userInput text := by
  simp [calculateResults, scoreLoop, foldl_scoreStep]

theorem incorrectChars_eq (text userInput : JSString) (elapsedMs : Int) :
    (calculateResults text userInput elapsedMs).incorrectChars
      = (text.length : Int) - matchCount userInput text := by
  simp [calculateResults, scoreLoop, foldl_scoreStep]

theorem matchCount_self_append : ∀ (userInput rest : JSString),
    matchCount userInput (userInput ++ rest) = userInput.length
  | [], _ => by simp [matchCount]
  | u :: us, rest => by
    simp [matchCount, matchCount_self_append us rest]; omega

theorem colorAt_cons_succ (u : CodeUnit) (userInput : JSString) (i : Nat) (c : CodeUnit) :
    colorAt (u :: userInput) (i + 1) c = colorAt userInput i c := by
  simp [colorAt, charAt]

theorem colorAt_nil (i : Nat) (c : CodeUnit) : colorAt [] i c = Color.gray := by
  simp [colorAt, charAt]

theorem greenCount_eq_matchCount : ∀ (text userInput : JSString),
    greenCount text userInput = matchCount userInput text
  | [], userInput => by simp [greenCount, renderTextWithColor, matchCount_nil_right]
  | t :: ts, [] => by
    have ih := greenCount_eq_matchCount ts []
    simp only [greenCount, renderTextWithColor, List.mapIdx_cons, colorAt_nil, matchCount] at ih ⊢
    simpa using ih
  | t :: ts, u :: us => by
    have ih := greenCount_eq_matchCount ts us
    simp only [greenCount, renderTextWithColor, List.mapIdx_cons, colorAt_cons_succ,
      matchCount] at ih ⊢
    by_cases h : u = t
    · rw [List.filter_cons, if_pos (by simp [colorAt, charAt, h]), List.length_cons, ih,
        if_pos h]
      omega
    · rw [List.filter_cons, if_neg (by simp [colorAt, charAt, h]), ih, if_neg h]
      omega

theorem length_renderTextWithColor (text userInput : JSString) :
    (renderTextWithColor text userInput).length = text.length := by
  simp [renderTextWithColor]

theorem green_add_rest {α : Type} : ∀ (spans : List (Color × α)),
    (spans.filter (fun span => span.1 = Color.green)).length
      + (spans.filter (fun span => span.1 = Color.red ∨ span.1 = Color.gray)).length
      = spans.length
  | [] => rfl
  | (c, a) :: rest => by
    have ih := green_add_rest rest
    cases c <;> simp [List.filter_cons] at ih ⊢ <;> omega

theorem greenCount_add_redOrGrayCount (text userInput : JSString) :
    greenCount text userInput + redOrGrayCount text userInput = text.length := by
  rw [greenCount, redOrGrayCount, green_add_rest, length_renderTextWithColor]

theorem accuracyOf_zero_zero : accuracyOf 0 0 = JSNumber.nan := by
  simp [accuracyOf, JSNumber.div, JSNumber.mul, JSNumber.round]

theorem accuracy_eq (text userInput : JSString) (elapsedMs : Int) :
    (calculateResults text userInput elapsedMs).accuracy
      = accuracyOf (matchCount userInput text) text.length := by
  simp [calculateResults, scoreLoop, foldl_scoreStep]

/-! ## The word count -/

theorem runStartsAt_succ_succ (p c : CodeUnit) (s : JSString) (i : Nat) :
    runStartsAt (p :: c :: s) (i + 2) = runStartsAt (c :: s) (i + 1) := by
  simp [runStartsAt, charAt]

theorem length_filter_runStartsAt_succ : ∀ (s : JSString) (p : CodeUnit),
    ((List.range s.length).filter (fun i => runStartsAt (p :: s) (i + 1))).length
      = countRuns (isWhiteSpace p) s
  | [], p => by simp [countRuns]
  | c :: r, p => by
    have ih := length_filter_runStartsAt_succ r c
    rw [List.length_cons, List.range_succ_eq_map, List.filter_cons, List.filter_map]
    have hfun : ((fun i => runStartsAt (p :: c :: r) (i + 1)) ∘ Nat.succ)
        = fun i => runStartsAt (c :: r) (i + 1) := by
      funext i
      simp [runStartsAt_succ_succ]
    have hhead : runStartsAt (p :: c :: r) (0 + 1) = (!isWhiteSpace c && isWhiteSpace p) := by
      simp [runStartsAt, charAt]
    rw [hfun]
    rw [hhead]
    cases hc : isWhiteSpace c <;> cases hp : isWhiteSpace p <;>
      simp [countRuns, hc, hp, ih]
    omega

theorem nonWhiteSpaceRuns_eq_countRuns : ∀ (s : JSString),
    nonWhiteSpaceRuns s = countRuns true s
  | [] => by simp [nonWhiteSpaceRuns, countRuns]
  | c :: r => by
    have h := length_filter_runStartsAt_succ r c
    rw [nonWhiteSpaceRuns, List.length_cons, List.range_succ_eq_map, List.filter_cons,
      List.filter_map]
    have hfun : (runStartsAt (c :: r) ∘ Nat.succ) = fun i => runStartsAt (c :: r) (i + 1) := by
      funext i
      rfl
    have hhead : runStartsAt (c :: r) 0 = !isWhiteSpace c := by
      simp [runStartsAt, charAt]
    rw [hfun, hhead]
    cases hc : isWhiteSpace c <;> simp [countRuns, hc, h]
    omega

theorem splitGo_cons (c : CodeUnit) (rest cur : JSString) (inSep : Bool) :
    splitGo (c :: rest) cur inSep
      = if isWhiteSpace c then
          if inSep then splitGo rest [] true else cur :: splitGo rest [] true
        else splitGo rest (cur ++ [c]) false := by
  rw [splitGo]

theorem countRuns_cons (boundary : Bool) (c : CodeUnit) (rest : JSString) :
    countRuns boundary (c :: rest)
      = if isWhiteSpace c then countRuns true rest
        else (if boundary then 1 else 0) + countRuns false rest := by
  rw [countRuns]

theorem length_splitGo : ∀ (l cur : JSString) (inSep : Bool) (h : l ≠ []),
    isWhiteSpace (l.getLast h) = false →
    (splitGo l cur inSep).length = countRuns inSep l + (if inSep then 0 else 1)
  | [], _, _, h, _ => absurd rfl h
  | [c], cur, inSep, _, hlast => by
    have hc : isWhiteSpace c = false := by simpa using hlast
    cases inSep <;> simp [splitGo, countRuns, hc]
  | c :: d :: rest, cur, inSep, _, hlast => by
    have hne : d :: rest ≠ [] := List.cons_ne_nil _ _
    have hlast' : isWhiteSpace ((d :: rest).getLast hne) = false := by
      rwa [List.getLast_cons hne] at hlast
    have ih := fun cur' inSep' => length_splitGo (d :: rest) cur' inSep' hne hlast'
    rw [splitGo_cons, countRuns_cons]
    cases hc : isWhiteSpace c <;> cases inSep <;>
      simp only [ih, List.length_cons, Bool.false_eq_true, if_true, if_false] <;> omega

theorem countRuns_dropWhile : ∀ (s : JSString),
    countRuns true (s.dropWhile isWhiteSpace) = countRuns true s
  | [] => rfl
  | c :: r => by
    cases hc : isWhiteSpace c
    · simp [List.dropWhile_cons, hc]
    · simp [List.dropWhile_cons, hc, countRuns, countRuns_dropWhile r]

theorem countRuns_concat_whiteSpace (w : CodeUnit) (hw : isWhiteSpace w = true) :
    ∀ (l : JSString) (boundary : Bool), countRuns boundary (l ++ [w]) = countRuns boundary l
  | [], boundary => by simp [countRuns, hw]
  | c :: r, boundary => by
    simp [countRuns, countRuns_concat_whiteSpace w hw r]

theorem countRuns_rdropWhile (l : JSString) (boundary : Bool) :
    countRuns boundary (l.rdropWhile isWhiteSpace) = countRuns boundary l := by
  induction l using List.reverseRecOn with
  | nil => simp
  | append_singleton r x ih =>
    cases hx : isWhiteSpace x
    · rw [List.rdropWhile_concat_neg _ _ _ (by simp [hx])]
    · rw [List.rdropWhile_concat_pos _ _ _ hx, ih, countRuns_concat_whiteSpace x hx]

theorem rdropWhile_cons_of_not (c : CodeUnit) (hc : isWhiteSpace c = false) (r : JSString) :
    (c :: r).rdropWhile isWhiteSpace = c :: r.rdropWhile isWhiteSpace := by
  induction r using List.reverseRecOn with
  | nil =>
    have := List.rdropWhile_concat_neg isWhiteSpace [] c (by simp [hc])
    simpa using this
  | append_singleton r x ih =>
    cases hx : isWhiteSpace x
    · rw [List.rdropWhile_concat_neg _ _ _ (by simp [hx]), ← List.cons_append,
        List.rdropWhile_concat_neg _ _ _ (by simp [hx])]
    · rw [List.rdropWhile_concat_pos _ _ _ hx, ← List.cons_append,
        List.rdropWhile_concat_pos _ _ _ hx, ih]

theorem countRuns_trim (s : JSString) : countRuns true (trim s) = countRuns true s := by
  rw [trim, countRuns_rdropWhile, countRuns_dropWhile]

theorem trim_of_all_whiteSpace (s : JSString) (h : ∀ c ∈ s, isWhiteSpace c = true) :
    trim s = [] := by
  rw [trim, List.dropWhile_eq_nil_iff.mpr h]
  rfl

theorem trim_of_not_all_whiteSpace (s : JSString) (h : ¬ ∀ c ∈ s, isWhiteSpace c = true) :
    ∃ c r, trim s = c :: r ∧ isWhiteSpace c = false := by
  have hne : s.dropWhile isWhiteSpace ≠ [] := fun hnil => h (List.dropWhile_eq_nil_iff.mp hnil)
  have hhead := List.head_dropWhile_not isWhiteSpace s hne
  obtain ⟨c, r, hcr⟩ := List.exists_cons_of_ne_nil hne
  have hc : isWhiteSpace c = false := by simpa [hcr] using hhead
  exact ⟨c, r.rdropWhile isWhiteSpace, by rw [trim, hcr, rdropWhile_cons_of_not c hc], hc⟩

theorem wordCount_of_all_whiteSpace (s : JSString) (h : ∀ c ∈ s, isWhiteSpace c = true) :
    wordCount s = 1 := by
  simp [wordCount, splitWhiteSpace, trim_of_all_whiteSpace s h, splitGo]

theorem wordCount_of_not_all_whiteSpace (s : JSString)
    (h : ¬ ∀ c ∈ s, isWhiteSpace c = true) :
    wordCount s = nonWhiteSpaceRuns s ∧ 1 ≤ wordCount s := by
  obtain ⟨c, r, hcr, hc⟩ := trim_of_not_all_whiteSpace s h
  have hne : trim s ≠ [] := by simp [hcr]
  have hlast : isWhiteSpace ((trim s).getLast hne) = false := by
    have := List.rdropWhile_last_not isWhiteSpace (s.dropWhile isWhiteSpace) hne
    simpa [trim] using this
  have hlen := length_splitGo (trim s) [] false hne hlast
  have hruns : countRuns true (trim s) = countRuns false (trim s) + 1 := by
    rw [hcr]; simp [countRuns, hc]; omega
  have heq : wordCount s = countRuns true s := by
    rw [wordCount, splitWhiteSpace, hlen, ← countRuns_trim, hruns]; simp
  rw [nonWhiteSpaceRuns_eq_countRuns]
  refine ⟨heq, ?_⟩
  rw [heq, ← countRuns_trim, hruns]
  omega

theorem one_le_wordCount (s : JSString) : 1 ≤ wordCount s := by
  by_cases h : ∀ c ∈ s, isWhiteSpace c = true
  · rw [wordCount_of_all_whiteSpace s h]
  · exact (wordCount_of_not_all_whiteSpace s h).2

/-! ## Words per minute -/

theorem wpm_eq (text userInput : JSString) (elapsedMs : Int) :
    (calculateResults text userInput elapsedMs).wpm
      = wpmOf (wordCount userInput) (timeTakenOf elapsedMs) :=
  rfl

theorem floor_double_near (x : ℚ) :
    |(⌊2 * x + 1 / 2⌋ : ℤ) - 2 * (⌊x + 1 / 2⌋ : ℤ)| ≤ 1 := by
  have hlo : ((⌊x + 1 / 2⌋ : ℤ) : ℚ) ≤ x + 1 / 2 := Int.floor_le _
  have hhi : x + 1 / 2 < ((⌊x + 1 / 2⌋ : ℤ) : ℚ) + 1 := Int.lt_floor_add_one _
  have h1 : 2 * (⌊x + 1 / 2⌋ : ℤ) - 1 ≤ (⌊2 * x + 1 / 2⌋ : ℤ) := by
    apply Int.le_floor.mpr
    push_cast
    linarith
  have h2 : (⌊2 * x + 1 / 2⌋ : ℤ) < 2 * (⌊x + 1 / 2⌋ : ℤ) + 2 := by
    apply Int.floor_lt.mpr
    push_cast
    linarith
  rw [abs_le]
  constructor <;> omega

/-! ## Accuracy and elapsed time -/

theorem matchCount_self (text : JSString) : matchCount text text = text.length := by
  have h := matchCount_self_append text []
  rwa [List.append_nil] at h

theorem eq_of_charAt_eq (text userInput : JSString) (hlen : userInput.length = text.length)
    (hall : ∀ i, i < text.length → charAt userInput i = charAt text i) : userInput = text := by
  apply List.ext_getElem?
  intro i
  by_cases hi : i < text.length
  · exact hall i hi
  · have h1 : text.length ≤ i := Nat.le_of_not_lt hi
    have h2 : userInput.length ≤ i := hlen ▸ h1
    rw [List.getElem?_eq_none h1, List.getElem?_eq_none h2]

theorem accuracy_empty_text (userInput : JSString) (elapsedMs : Int) :
    (calculateResults [] userInput elapsedMs).accuracy = JSNumber.nan := by
  rw [accuracy_eq, matchCount_nil_right]
  exact accuracyOf_zero_zero

theorem div_finite_of_ne_zero (a b : ℚ) (hb : b ≠ 0) :
    JSNumber.div (JSNumber.finite a) (JSNumber.finite b) = JSNumber.toDouble (a / b) := by
  simp [JSNumber.div, hb]

theorem mul_finite (a b : ℚ) :
    JSNumber.mul (JSNumber.finite a) (JSNumber.finite b) = JSNumber.toDouble (a * b) :=
  rfl

theorem toDouble_zero : JSNumber.toDouble 0 = JSNumber.finite 0 := by
  have h := JSNumber.toDouble_intCast 0 (by norm_num) (by norm_num)
  simpa using h

theorem accuracyOf_bounds (correctChars : Int) (textLength : Nat) (h0 : 0 ≤ correctChars)
    (hle : correctChars ≤ textLength) (hn : textLength ≠ 0) :
    ∃ a : ℤ, accuracyOf correctChars textLength = JSNumber.finite a ∧ 0 ≤ a ∧ a ≤ 100 := by
  have hnq : ((textLength : ℕ) : ℚ) ≠ 0 := by exact_mod_cast hn
  have hpos : (0 : ℚ) < (textLength : ℚ) := by
    exact_mod_cast Nat.pos_of_ne_zero hn
  have hc0 : (0 : ℚ) ≤ (correctChars : ℚ) := by exact_mod_cast h0
  have hcn : (correctChars : ℚ) ≤ (textLength : ℚ) := by exact_mod_cast hle
  have hq0 : (((0 : ℤ) : ℚ)) ≤ (correctChars : ℚ) / (textLength : ℚ) := by
    simpa using div_nonneg hc0 hpos.le
  have hq1 : (correctChars : ℚ) / (textLength : ℚ) ≤ ((1 : ℤ) : ℚ) := by
    simpa using (div_le_one hpos).mpr hcn
  obtain ⟨v, hv, hv0, hv1⟩ :=
    JSNumber.toDouble_between_ints _ 0 1 hq0 hq1 (by norm_num) (by norm_num)
  have hp0 : (((0 : ℤ) : ℚ)) ≤ v * 100 := by
    push_cast at hv0 ⊢
    linarith
  have hp1 : v * 100 ≤ ((100 : ℤ) : ℚ) := by
    push_cast at hv1 ⊢
    linarith
  obtain ⟨u, hu, hu0, hu1⟩ :=
    JSNumber.toDouble_between_ints _ 0 100 hp0 hp1 (by norm_num) (by norm_num)
  refine ⟨⌊u + 1 / 2⌋, ?_, ?_, ?_⟩
  · rw [accuracyOf, div_finite_of_ne_zero _ _ hnq, hv, mul_finite, hu, JSNumber.round]
  · apply Int.floor_nonneg.mpr
    push_cast at hu0
    linarith
  · have : (⌊u + 1 / 2⌋ : ℤ) < 101 := by
      apply Int.floor_lt.mpr
      push_cast at hu1 ⊢
      linarith
    omega

theorem accuracyOf_self (textLength : Nat) (h : textLength ≠ 0) :
    accuracyOf (textLength : Int) textLength = JSNumber.finite 100 := by
  have hq : ((textLength : ℕ) : ℚ) ≠ 0 := by exact_mod_cast h
  have hone : (((textLength : ℤ) : ℚ)) / ((textLength : ℕ) : ℚ) = ((1 : ℤ) : ℚ) := by
    push_cast
    exact div_self hq
  have h1 := JSNumber.toDouble_intCast 1 (by norm_num) (by norm_num)
  have h100 := JSNumber.toDouble_intCast 100 (by norm_num) (by norm_num)
  have hmul : (((1 : ℤ) : ℚ)) * 100 = ((100 : ℤ) : ℚ) := by norm_num
  rw [accuracyOf, div_finite_of_ne_zero _ _ hq, hone, h1, mul_finite, hmul, h100,
    JSNumber.round]
  norm_num

theorem accuracyOf_zero_pos (textLength : Nat) (h : textLength ≠ 0) :
    accuracyOf 0 textLength = JSNumber.finite 0 := by
  have hq : ((textLength : ℕ) : ℚ) ≠ 0 := by exact_mod_cast h
  have hzero : (((0 : ℤ) : ℚ)) / ((textLength : ℕ) : ℚ) = 0 := by simp
  have hmul : (0 : ℚ) * 100 = 0 := by norm_num
  rw [accuracyOf, div_finite_of_ne_zero _ _ hq, hzero, toDouble_zero, mul_finite, hmul,
    toDouble_zero, JSNumber.round]
  norm_num

theorem timeTakenOf_zero : timeTakenOf 0 = JSNumber.finite 0 := by
  have h : (((0 : ℤ) : ℚ)) / 1000 = 0 := by norm_num
  rw [timeTakenOf, div_finite_of_ne_zero _ _ (by norm_num), h, toDouble_zero]

theorem wpmOf_zero_time (words : Nat) (h : 1 ≤ words) :
    wpmOf words (JSNumber.finite 0) = JSNumber.posInf := by
  have hne : (words : ℚ) ≠ 0 := by
    exact_mod_cast Nat.pos_iff_ne_zero.mp h
  have hpos : (0 : ℚ) < (words : ℚ) := by
    exact_mod_cast h
  simp [wpmOf, JSNumber.div, JSNumber.mul, JSNumber.round, hne, hpos]

theorem wpm_zero_time (text userInput : JSString) :
    (calculateResults text userInput 0).wpm = JSNumber.posInf := by
  rw [wpm_eq, timeTakenOf_zero]
  exact wpmOf_zero_time _ (one_le_wordCount userInput)

theorem timeTakenOf_bounds (elapsedMs : Int) (hpos : 0 < elapsedMs)
    (hlt : elapsedMs < (2 : ℤ) ^ 53) :
    ∃ t : ℚ, timeTakenOf elapsedMs = JSNumber.finite t ∧
      (2 : ℚ) ^ (-10 : ℤ) ≤ t ∧ t ≤ (2 : ℚ) ^ (44 : ℤ) := by
  have h1 : (1 : ℚ) ≤ (elapsedMs : ℚ) := by exact_mod_cast hpos
  have h2 : (elapsedMs : ℚ) < (2 : ℚ) ^ 53 := by exact_mod_cast hlt
  have hlo : (2 : ℚ) ^ (-10 : ℤ) ≤ (elapsedMs : ℚ) / 1000 := by
    rw [le_div_iff₀ (by norm_num)]
    norm_num
    linarith
  have hhi : (elapsedMs : ℚ) / 1000 < (2 : ℚ) ^ (44 : ℤ) := by
    rw [div_lt_iff₀ (by norm_num)]
    norm_num at h2 ⊢
    linarith
  obtain ⟨hv, hvlo, hvhi⟩ := JSNumber.toDouble_normal hlo hhi (by norm_num) (by norm_num)
  exact ⟨_, by rw [timeTakenOf, div_finite_of_ne_zero _ _ (by norm_num), hv], hvlo, hvhi⟩

theorem wpmOf_zero_words (t : ℚ) (ht : t ≠ 0) :
    wpmOf 0 (JSNumber.finite t) = JSNumber.finite 0 := by
  have hzero : (((0 : ℕ) : ℚ)) / t = 0 := by simp
  have hmul : (0 : ℚ) * 60 = 0 := by norm_num
  rw [wpmOf, div_finite_of_ne_zero _ _ ht, hzero, toDouble_zero, mul_finite, hmul,
    toDouble_zero, JSNumber.round]
  norm_num

theorem wpmOf_pair (w : Nat) (t : ℚ) (hw1 : 1 ≤ w) (hw : w < 2 ^ 53)
    (ht1 : (2 : ℚ) ^ (-10 : ℤ) ≤ t) (ht2 : t ≤ (2 : ℚ) ^ (44 : ℤ)) :
    ∃ d : ℚ, wpmOf w (JSNumber.finite t) = JSNumber.finite ((⌊d + 1 / 2⌋ : ℤ) : ℚ) ∧
      wpmOf (2 * w) (JSNumber.finite t) = JSNumber.finite ((⌊2 * d + 1 / 2⌋ : ℤ) : ℚ) := by
  have htpos : (0 : ℚ) < t := lt_of_lt_of_le (JSNumber.two_zpow_pos _) ht1
  have hwq1 : (1 : ℚ) ≤ (w : ℚ) := by exact_mod_cast hw1
  have hwq : (w : ℚ) < 9007199254740992 := by
    have h := hw
    norm_num at h
    exact_mod_cast h
  have hxlo : (2 : ℚ) ^ (-44 : ℤ) ≤ (w : ℚ) / t := by
    rw [le_div_iff₀ htpos]
    have : (2 : ℚ) ^ (-44 : ℤ) * t ≤ (2 : ℚ) ^ (-44 : ℤ) * (2 : ℚ) ^ (44 : ℤ) :=
      mul_le_mul_of_nonneg_left ht2 (JSNumber.two_zpow_pos _).le
    norm_num at this ⊢
    linarith
  have hxhi : (w : ℚ) / t < (2 : ℚ) ^ (63 : ℤ) := by
    rw [div_lt_iff₀ htpos]
    have : (2 : ℚ) ^ (63 : ℤ) * (2 : ℚ) ^ (-10 : ℤ) ≤ (2 : ℚ) ^ (63 : ℤ) * t :=
      mul_le_mul_of_nonneg_left ht1 (JSNumber.two_zpow_pos _).le
    norm_num at this ⊢
    linarith
  obtain ⟨v, hv, hv2, hvlo, hvhi⟩ :=
    JSNumber.toDouble_two_mul hxlo hxhi (by norm_num) (by norm_num)
  have hylo : (2 : ℚ) ^ (-44 : ℤ) ≤ v * 60 := by
    have : (0 : ℚ) < (2 : ℚ) ^ (-44 : ℤ) := JSNumber.two_zpow_pos _
    linarith
  have hyhi : v * 60 < (2 : ℚ) ^ (69 : ℤ) := by
    norm_num at hvhi ⊢
    linarith
  obtain ⟨u, hu, hu2, _, _⟩ :=
    JSNumber.toDouble_two_mul hylo hyhi (by norm_num) (by norm_num)
  have hdouble : (((2 * w : ℕ) : ℚ)) / t = 2 * ((w : ℚ) / t) := by
    push_cast
    ring
  have hmul2 : 2 * v * 60 = 2 * (v * 60) := by ring
  refine ⟨u, ?_, ?_⟩
  · rw [wpmOf, div_finite_of_ne_zero _ _ htpos.ne.symm, hv, mul_finite, hu, JSNumber.round]
  · rw [wpmOf, div_finite_of_ne_zero _ _ htpos.ne.symm, hdouble, hv2, mul_finite, hmul2, hu2,
      JSNumber.round]

theorem toDouble_half : JSNumber.toDouble (1 / 2) = JSNumber.finite (1 / 2) := by
  obtain ⟨v, hv, hv2, _, _⟩ :=
    JSNumber.toDouble_two_mul (q := 1 / 2) (a := -1) (b := 0) (by norm_num) (by norm_num)
      (by norm_num) (by norm_num)
  have h1 := JSNumber.toDouble_intCast 1 (by norm_num) (by norm_num)
  have h2 : (2 : ℚ) * (1 / 2) = ((1 : ℤ) : ℚ) := by norm_num
  rw [h2, h1] at hv2
  have hval : v = 1 / 2 := by
    have := JSNumber.finite.inj hv2
    push_cast at this
    linarith
  rw [hv, hval]

theorem wpmOf_three_in_six_seconds : wpmOf 3 (timeTakenOf 6000) = JSNumber.finite 30 := by
  have h6 := JSNumber.toDouble_intCast 6 (by norm_num) (by norm_num)
  have h30 := JSNumber.toDouble_intCast 30 (by norm_num) (by norm_num)
  have ht : (((6000 : ℤ) : ℚ)) / 1000 = ((6 : ℤ) : ℚ) := by norm_num
  have hx : (((3 : ℕ) : ℚ)) / ((6 : ℤ) : ℚ) = 1 / 2 := by norm_num
  have hy : (1 / 2 : ℚ) * 60 = ((30 : ℤ) : ℚ) := by norm_num
  rw [timeTakenOf, div_finite_of_ne_zero _ _ (by norm_num), ht, h6, wpmOf,
    div_finite_of_ne_zero _ _ (by norm_num), hx, toDouble_half, mul_finite, hy, h30,
    JSNumber.round]
  norm_num

/-! ## Binary64 rounding at work: two evaluations -/

theorem toDouble_eval {q : ℚ} (l : ℤ) (hlo : (2 : ℚ) ^ l ≤ q) (hhi : q < (2 : ℚ) ^ (l + 1))
    (hn : -1022 ≤ l) (ho : l + 1 ≤ 1023) :
    JSNumber.toDouble q = JSNumber.finite (JSNumber.roundTo (l - 52) q) := by
  have h := (JSNumber.toDouble_normal hlo hhi hn ho).1
  rwa [JSNumber.log_eq_of_bounds hlo hhi] at h

theorem toDouble_23_div_40 :
    JSNumber.toDouble ((23 : ℚ) / 40)
      = JSNumber.finite (2589569785738035 / 4503599627370496) := by
  rw [toDouble_eval (-1) (by norm_num) (by norm_num) (by norm_num) (by norm_num)]
  norm_num [JSNumber.roundTo, JSNumber.roundHalfEven]

theorem toDouble_23_div_40_mul_100 :
    JSNumber.toDouble ((2589569785738035 / 4503599627370496 : ℚ) * 100)
      = JSNumber.finite (8092405580431359 / 140737488355328) := by
  rw [toDouble_eval 5 (by norm_num) (by norm_num) (by norm_num) (by norm_num)]
  norm_num [JSNumber.roundTo, JSNumber.roundHalfEven]

theorem accuracyOf_23_of_40 : accuracyOf 23 40 = JSNumber.finite 57 := by
  have hq : (((23 : ℤ) : ℚ)) / ((40 : ℕ) : ℚ) = (23 : ℚ) / 40 := by norm_num
  rw [accuracyOf, div_finite_of_ne_zero _ _ (by norm_num), hq, toDouble_23_div_40, mul_finite,
    toDouble_23_div_40_mul_100, JSNumber.round]
  norm_num

theorem timeTakenOf_14400 :
    timeTakenOf 14400 = JSNumber.finite (8106479329266893 / 562949953421312) := by
  have hq : (((14400 : ℤ) : ℚ)) / 1000 = (72 : ℚ) / 5 := by norm_num
  rw [timeTakenOf, div_finite_of_ne_zero _ _ (by norm_num), hq,
    toDouble_eval 3 (by norm_num) (by norm_num) (by norm_num) (by norm_num)]
  norm_num [JSNumber.roundTo, JSNumber.roundHalfEven]

theorem wpmOf_three_in_14400_ms : wpmOf 3 (timeTakenOf 14400) = JSNumber.finite 12 := by
  have h1 : JSNumber.toDouble ((((3 : ℕ) : ℚ)) / (8106479329266893 / 562949953421312))
      = JSNumber.finite (3752999689475413 / 18014398509481984) := by
    rw [toDouble_eval (-3) (by norm_num) (by norm_num) (by norm_num) (by norm_num)]
    norm_num [JSNumber.roundTo, JSNumber.roundHalfEven]
  have h2 : JSNumber.toDouble ((3752999689475413 / 18014398509481984 : ℚ) * 60)
      = JSNumber.finite (7036874417766399 / 562949953421312) := by
    rw [toDouble_eval 3 (by norm_num) (by norm_num) (by norm_num) (by norm_num)]
    norm_num [JSNumber.roundTo, JSNumber.roundHalfEven]
  rw [timeTakenOf_14400, wpmOf, div_finite_of_ne_zero _ _ (by norm_num), h1, mul_finite, h2,
    JSNumber.round]
  norm_num

/-! ## The claims about the character counts -/

/-- C1: the invariant `correctChars + incorrectChars = max (len target) (len typed)` is broken
by the code when the typed text is longer than the target.  With target `a` and typed text `ab`
the loop of lines 53-59 ends with one correct and one incorrect character (the `b`, compared
with the absent `text[1]`), and line 60 then adds `1 - 2 = -1`, there being no `max(0, ...)`:
the reported counts are 1 and 0, and their sum is 1, not `max 1 2 = 2`.  The keystroke handler
of lines 85-91 treats the same `b` as an incorrect character. -/
theorem C1_sum_ne_max_for_longer_input :
    scoreLoop (ofString "a") (ofString "ab") = (1, 1) ∧
    playsErrorSound (ofString "a") (ofString "ab") = true ∧
    (calculateResults (ofString "a") (ofString "ab") 1000).correctChars = 1 ∧
    (calculateResults (ofString "a") (ofString "ab") 1000).incorrectChars = 0 ∧
    (calculateResults (ofString "a") (ofString "ab") 1000).correctChars
        + (calculateResults (ofString "a") (ofString "ab") 1000).incorrectChars
      ≠ max ((ofString "a").length : Int) ((ofString "ab").length : Int) := by
  decide

/-- C2: for a non-empty target text and any typed text, the accuracy of line 62, computed in
binary64 arithmetic, is a finite integer between 0 and 100. -/
theorem C2_accuracy_bounds (text userInput : JSString) (elapsedMs : Int) (h : text ≠ []) :
    ∃ a : ℤ, (calculateResults text userInput elapsedMs).accuracy = JSNumber.finite a
      ∧ 0 ≤ a ∧ a ≤ 100 := by
  have hlen : text.length ≠ 0 := by simpa using h
  have hle : (matchCount userInput text : ℤ) ≤ (text.length : ℤ) := by
    exact_mod_cast matchCount_le_text userInput text
  rw [accuracy_eq]
  exact accuracyOf_bounds _ _ (Int.natCast_nonneg _) hle hlen

/-- C2 at target `hello` and typed text `halxoxx`, which is longer than the target. -/
theorem C2_accuracy_bounds_witness :
    ofString "hello" ≠ [] ∧
    ∃ a : ℤ, (calculateResults (ofString "hello") (ofString "halxoxx") 10000).accuracy
        = JSNumber.finite a ∧ 0 ≤ a ∧ a ≤ 100 :=
  ⟨by decide, C2_accuracy_bounds (ofString "hello") (ofString "halxoxx") 10000 (by decide)⟩

/-- C3, as stated, fails at the empty target: the empty typed text has the same length and
matches at every position, yet line 62 computes `0 / 0 * 100`, so the accuracy is `NaN`, not
`100`. -/
theorem C3_empty_texts_accuracy_nan :
    ([] : JSString).length = ([] : JSString).length ∧
    (∀ i, i < ([] : JSString).length → charAt [] i = charAt [] i) ∧
    (calculateResults [] [] 6000).accuracy = JSNumber.nan ∧
    (calculateResults [] [] 6000).accuracy ≠ JSNumber.finite 100 := by
  have hnan : (calculateResults [] [] 6000).accuracy = JSNumber.nan := by
    rw [accuracy_eq]
    exact accuracyOf_zero_zero
  refine ⟨rfl, fun _ _ => rfl, hnan, ?_⟩
  rw [hnan]
  exact fun h => JSNumber.noConfusion h

/-- C3, amended: for a non-empty target text and a typed text of the same length that matches
the target at every position, `correctChars` is the length of the target, `incorrectChars` is
0 and the accuracy is 100. -/
theorem C3_full_match_results (text userInput : JSString) (elapsedMs : Int) (hne : text ≠ [])
    (hlen : userInput.length = text.length)
    (hall : ∀ i, i < text.length → charAt userInput i = charAt text i) :
    (calculateResults text userInput elapsedMs).correctChars = (text.length : Int) ∧
    (calculateResults text userInput elapsedMs).incorrectChars = 0 ∧
    (calculateResults text userInput elapsedMs).accuracy = JSNumber.finite 100 := by
  have heq : userInput = text := eq_of_charAt_eq text userInput hlen hall
  have hlen0 : text.length ≠ 0 := by simpa using hne
  subst heq
  refine ⟨?_, ?_, ?_⟩
  · rw [correctChars_eq, matchCount_self]
  · rw [incorrectChars_eq, matchCount_self]
    ring
  · rw [accuracy_eq, matchCount_self]
    exact accuracyOf_self _ hlen0

/-- C3 (amended) at target and typed text `the cat sat`: 11 correct, 0 incorrect, accuracy
100. -/
theorem C3_full_match_results_witness :
    ofString "the cat sat" ≠ [] ∧
    (calculateResults (ofString "the cat sat") (ofString "the cat sat") 6000).correctChars = 11 ∧
    (calculateResults (ofString "the cat sat") (ofString "the cat sat") 6000).incorrectChars = 0 ∧
    (calculateResults (ofString "the cat sat") (ofString "the cat sat") 6000).accuracy
      = JSNumber.finite 100 :=
  ⟨by decide,
    C3_full_match_results (ofString "the cat sat") (ofString "the cat sat") 6000 (by decide) rfl
      (fun _ _ => rfl)⟩

/-- C4: when the typed text is a strict initial segment of the target text, `correctChars` is
the length of the typed text and `incorrectChars` is the length of the untyped remainder. -/
theorem C4_initial_segment_results (text userInput : JSString) (elapsedMs : Int)
    (hseg : userInput <+: text) (hlt : userInput.length < text.length) :
    (calculateResults text userInput elapsedMs).correctChars = (userInput.length : Int) ∧
    (calculateResults text userInput elapsedMs).incorrectChars
      = ((text.length - userInput.length : Nat) : Int) := by
  obtain ⟨rest, hrest⟩ := hseg
  subst hrest
  refine ⟨?_, ?_⟩
  · rw [correctChars_eq, matchCount_self_append]
  · rw [incorrectChars_eq, matchCount_self_append]
    rw [Nat.cast_sub (Nat.le_of_lt hlt)]

/-- C4 at target `abc` and the empty typed text: 0 correct, 3 incorrect, accuracy 0. -/
theorem C4_initial_segment_results_witness :
    (ofString "" <+: ofString "abc") ∧ (ofString "").length < (ofString "abc").length ∧
    (calculateResults (ofString "abc") (ofString "") 1000).correctChars = 0 ∧
    (calculateResults (ofString "abc") (ofString "") 1000).incorrectChars = 3 ∧
    (calculateResults (ofString "abc") (ofString "") 1000).accuracy = JSNumber.finite 0 :=
  ⟨by decide, by decide,
    (C4_initial_segment_results (ofString "abc") (ofString "") 1000 (by decide) (by decide)).1,
    (C4_initial_segment_results (ofString "abc") (ofString "") 1000 (by decide) (by decide)).2,
    by rw [accuracy_eq]; exact accuracyOf_zero_pos 3 (by decide)⟩

/-- C5: for every target text and every typed text, also a typed text longer than the target,
`correctChars` and `incorrectChars` are both at least 0. -/
theorem C5_counts_nonneg (text userInput : JSString) (elapsedMs : Int) :
    0 ≤ (calculateResults text userInput elapsedMs).correctChars ∧
    0 ≤ (calculateResults text userInput elapsedMs).incorrectChars := by
  have h := matchCount_le_text userInput text
  rw [correctChars_eq, incorrectChars_eq]
  constructor <;> omega

/-! ## The claims about the divisions -/

/-- C6, as stated, fails: with the empty target and typed text `a`, line 62 computes
`0 / 0 * 100`; the accuracy is `NaN`, which is neither finite nor the fallback 0.  The function
has no other way of signalling an invalid input: it always calls `setResults`. -/
theorem C6_empty_target_accuracy_not_zero :
    (calculateResults [] (ofString "a") 1000).accuracy ≠ JSNumber.finite 0 ∧
    JSNumber.isFinite (calculateResults [] (ofString "a") 1000).accuracy = false := by
  rw [accuracy_empty_text]
  exact ⟨fun h => JSNumber.noConfusion h, rfl⟩

/-- C6, amended: when the target text is empty, for every typed text and every elapsed time
the accuracy computed on line 62 is `NaN`. -/
theorem C6_empty_target_accuracy_nan (userInput : JSString) (elapsedMs : Int) :
    (calculateResults [] userInput elapsedMs).accuracy = JSNumber.nan := by
  rw [accuracy_eq, matchCount_nil_right]
  exact accuracyOf_zero_zero

/-- C7, as stated, fails: with typed text `the cat sat` and an elapsed time of 0 seconds, line
48 computes `3 / 0 * 60`; the words per minute are `Infinity`, which is neither finite nor 0.
The function has no other way of signalling an invalid input. -/
theorem C7_zero_time_wpm_not_zero :
    (calculateResults (ofString "the cat sat") (ofString "the cat sat") 0).wpm
      ≠ JSNumber.finite 0 ∧
    JSNumber.isFinite (calculateResults (ofString "the cat sat") (ofString "the cat sat") 0).wpm
      = false := by
  rw [wpm_zero_time]
  exact ⟨fun h => JSNumber.noConfusion h, rfl⟩

/-- C7, amended: when the elapsed time is 0 seconds, for every target text and every typed
text the words per minute computed on line 48 are `Infinity`. -/
theorem C7_zero_time_wpm_posInf (text userInput : JSString) :
    (calculateResults text userInput 0).wpm = JSNumber.posInf := by
  rw [wpm_eq, timeTakenOf_zero]
  exact wpmOf_zero_time _ (one_le_wordCount userInput)

/-! ## The claims about the word count and the words per minute -/

/-- C8: the word count of line 46 is the number of maximal runs of code units that are not
white space when the typed text has such a code unit, and 1 when the typed text is empty or
all white space; it is always at least 1. -/
theorem C8_wordCount_eq_runs (userInput : JSString) :
    wordCount userInput
        = (if userInput.any (fun c => !isWhiteSpace c) then nonWhiteSpaceRuns userInput else 1) ∧
    1 ≤ wordCount userInput := by
  refine ⟨?_, one_le_wordCount userInput⟩
  by_cases h : ∀ c ∈ userInput, isWhiteSpace c = true
  · have hany : userInput.any (fun c => !isWhiteSpace c) = false := by
      rw [List.any_eq_false]
      intro c hc
      simp [h c hc]
    rw [hany, wordCount_of_all_whiteSpace userInput h]
    simp
  · have hany : userInput.any (fun c => !isWhiteSpace c) = true := by
      rw [List.any_eq_true]
      push_neg at h
      obtain ⟨c, hc, hws⟩ := h
      exact ⟨c, hc, by simpa using hws⟩
    rw [hany, (wordCount_of_not_all_whiteSpace userInput h).1]
    simp

/-- C8 at the typed texts `the cat sat` (3 words) and the empty text (1 word). -/
theorem C8_wordCount_eq_runs_witness :
    wordCount (ofString "the cat sat") = 3 ∧ nonWhiteSpaceRuns (ofString "the cat sat") = 3 ∧
    wordCount (ofString "") = 1 ∧ nonWhiteSpaceRuns (ofString "") = 0 ∧
    1 ≤ wordCount (ofString "the cat sat") :=
  ⟨by decide, by decide, by decide, by decide,
    (C8_wordCount_eq_runs (ofString "the cat sat")).2⟩

/-- C9: for an elapsed time greater than 0 (a whole number of milliseconds below `2 ^ 53`,
divided by 1000 on line 47) and every word count `w` below `2 ^ 53`, the words per minute that
line 48 computes in binary64 arithmetic for `w` and for `2 * w` words are finite integers `a`
and `b` with `|b - 2 * a| ≤ 1`. -/
theorem C9_wpm_doubling (w : Nat) (elapsedMs : Int) (hpos : 0 < elapsedMs)
    (hms : elapsedMs < (2 : ℤ) ^ 53) (hw : w < 2 ^ 53) :
    ∃ a b : ℤ, wpmOf w (timeTakenOf elapsedMs) = JSNumber.finite a ∧
      wpmOf (2 * w) (timeTakenOf elapsedMs) = JSNumber.finite b ∧ |b - 2 * a| ≤ 1 := by
  obtain ⟨t, ht, ht1, ht2⟩ := timeTakenOf_bounds elapsedMs hpos hms
  have htne : t ≠ 0 := (lt_of_lt_of_le (JSNumber.two_zpow_pos _) ht1).ne.symm
  rw [ht]
  rcases Nat.eq_zero_or_pos w with h0 | h1
  · subst h0
    refine ⟨0, 0, ?_, ?_, by norm_num⟩
    · simpa using wpmOf_zero_words t htne
    · simpa using wpmOf_zero_words t htne
  · obtain ⟨d, hd, hd2⟩ := wpmOf_pair w t h1 hw ht1 ht2
    exact ⟨_, _, hd, hd2, floor_double_near d⟩

/-- C9 at 3 words in 6 seconds: the words per minute are 30. -/
theorem C9_wpm_doubling_witness :
    (0 : ℤ) < 6000 ∧ wpmOf 3 (timeTakenOf 6000) = JSNumber.finite 30 ∧
    ∃ a b : ℤ, wpmOf 3 (timeTakenOf 6000) = JSNumber.finite a ∧
      wpmOf (2 * 3) (timeTakenOf 6000) = JSNumber.finite b ∧ |b - 2 * a| ≤ 1 :=
  ⟨by norm_num, wpmOf_three_in_six_seconds,
    C9_wpm_doubling 3 6000 (by norm_num) (by norm_num) (by norm_num)⟩

/-! ## The claim about the colouring -/

/-- C10: for every target text and every typed text, the number of target characters that
`renderTextWithColor` renders green is `correctChars`, and the number it renders red or gray is
`incorrectChars`. -/
theorem C10_render_agrees_with_score (text userInput : JSString) (elapsedMs : Int) :
    (greenCount text userInput : Int) = (calculateResults text userInput elapsedMs).correctChars ∧
    (redOrGrayCount text userInput : Int)
      = (calculateResults text userInput elapsedMs).incorrectChars := by
  have hsum := greenCount_add_redOrGrayCount text userInput
  have hgreen := greenCount_eq_matchCount text userInput
  rw [correctChars_eq, incorrectChars_eq, ← hgreen]
  constructor
  · rfl
  · omega

end TypingGame
